import Mathlib

/-!
Verification of the pitchy monophonic pitch detector (McLeod Pitch Method).

The numerical pipeline of the source (class Autocorrelator, the helpers
getKeyMaximumIndices and refineResultIndex, and class PitchDetector with its
methods findPitch, belowMinimumVolume and nsdf) is embedded here over exact
rational arithmetic, buffers being modelled as lists of rationals.  The
external FFT collaborator (the fft.js dependency, out of scope of the
repository and specified only at its interface) is modelled as the exact
discrete Fourier transform over the complex numbers.
-/

namespace Pitchy

/-- Source function ceilPow2 (util): rounds the input up to the next power
of two with the bit-twiddling cascade; JavaScript 32-bit integer operations
are modelled by the corresponding operations on natural numbers, which agree
with them on the int32-safe range the detector operates in.  One or-shift
step of the cascade is v |= v >> s. -/
def orShift (a s : ℕ) : ℕ := a ||| (a >>> s)

/-- Source function ceilPow2 continued: the five or-shift steps applied to
v - 1, plus one. -/
def ceilPow2 (v : ℕ) : ℕ :=
  orShift (orShift (orShift (orShift (orShift (v - 1) 1) 2) 4) 8) 16 + 1

/-- The FFT size used by an Autocorrelator of input length N:
the source constructor computes ceilPow2 (2 * inputLength). -/
def fftSize (N : ℕ) : ℕ := ceilPow2 (2 * N)

/-- Linear (non-circular) sample autocorrelation at lag tau, as defined in
the glossary of the specification: the sum over j from 0 to N-1-tau of
x[j] * x[j+tau].  This is the reference value the FFT pipeline is compared
against (theorem for claim C1) and, by that theorem, the exact value held by
the nsdf buffer after the autocorrelate call inside nsdf. -/
def autocorr (x : List ℚ) (τ : ℕ) : ℚ :=
  ∑ j ∈ Finset.range (x.length - τ), x.getD j 0 * x.getD (j + τ) 0

/-- Running normalisation value m of the source nsdf loop: m starts at
2 * r'(0) and each iteration i subtracts input[i]^2 + input[N-1-i]^2.
mprime x i is the value of m at the start of iteration i. -/
def mprime (x : List ℚ) : ℕ → ℚ
  | 0 => 2 * autocorr x 0
  | i + 1 => mprime x i - ((x.getD i 0) ^ 2 + (x.getD (x.length - i - 1) 0) ^ 2)

/-- The first loop of the source nsdf method, producing the buffer contents
from position i on, with k cells left to fill and current running value m.
While 0 < m the cell is set to 2 * r'(i) / m; as soon as m fails to be
positive the loop exits and the second loop zero-fills the remaining cells. -/
def nsdfFill (x : List ℚ) : ℕ → ℕ → ℚ → List ℚ
  | 0, _, _ => []
  | k + 1, i, m =>
    if 0 < m then
      (2 * autocorr x i / m) ::
        nsdfFill x k (i + 1) (m - ((x.getD i 0) ^ 2 + (x.getD (x.length - i - 1) 0) ^ 2))
    else List.replicate (k + 1) 0

/-- Contents of the nsdf buffer after the source method nsdf runs on the
given input: the buffer (length equal to the input length) first receives the
autocorrelation r' (per the FFT-pipeline theorem for claim C1), then the two
loops of nsdf rewrite it in place. -/
def nsdfBuffer (x : List ℚ) : List ℚ :=
  nsdfFill x x.length 0 (2 * autocorr x 0)

/-- State of the scan loop of the source function getKeyMaximumIndices.
The JavaScript sentinel maxIndex = -1 is modelled as none, and the initial
max = -Infinity as the bottom element of WithBot Q; max is only ever compared
against buffer values, and every rational exceeds bottom exactly as every
float exceeds -Infinity. -/
structure ScanState where
  keyIndices : List ℕ
  looking : Bool
  maxVal : WithBot ℚ
  maxIndex : Option ℕ
deriving DecidableEq, Repr

/-- Initial scan state of getKeyMaximumIndices. -/
def scanStart : ScanState := ⟨[], false, ⊥, none⟩

/-- One iteration of the loop body of getKeyMaximumIndices at index i:
a positively sloped zero crossing starts looking with the current value as
running maximum; a negatively sloped one stops looking and commits the
running maximum index if one is set (the source does not reset maxIndex
afterwards); otherwise, while looking, a value above the running maximum
becomes the new running maximum. -/
def scanStep (input : List ℚ) (s : ScanState) (i : ℕ) : ScanState :=
  if input.getD (i - 1) 0 ≤ 0 ∧ 0 < input.getD i 0 then
    { s with looking := true, maxIndex := some i,
             maxVal := ((input.getD i 0 : ℚ) : WithBot ℚ) }
  else if 0 < input.getD (i - 1) 0 ∧ input.getD i 0 ≤ 0 then
    { s with looking := false,
             keyIndices :=
               match s.maxIndex with
               | some k => s.keyIndices ++ [k]
               | none => s.keyIndices }
  else if s.looking = true ∧ s.maxVal < ((input.getD i 0 : ℚ) : WithBot ℚ) then
    { s with maxVal := ((input.getD i 0 : ℚ) : WithBot ℚ), maxIndex := some i }
  else s

/-- Source function getKeyMaximumIndices: scan indices i with
1 <= i < input.length - 1 and return the committed key-maximum indices. -/
def getKeyMaximumIndices (input : List ℚ) : List ℕ :=
  ((List.range' 1 (input.length - 2)).foldl (scanStep input) scanStart).keyIndices

/-- Coefficient a of the interpolating parabola in refineResultIndex:
a = y0/2 - y1 + y2/2. -/
def refineA (index : ℕ) (data : List ℚ) : ℚ :=
  data.getD (index - 1) 0 / 2 - data.getD index 0 + data.getD (index + 1) 0 / 2

/-- Coefficient b of the interpolating parabola in refineResultIndex, with
x0 = index - 1, x1 = index, x2 = index + 1. -/
def refineB (index : ℕ) (data : List ℚ) : ℚ :=
  -(data.getD (index - 1) 0 / 2) * (((index : ℚ)) + ((index : ℚ) + 1))
    + data.getD index 0 * (((index : ℚ) - 1) + ((index : ℚ) + 1))
    - data.getD (index + 1) 0 / 2 * (((index : ℚ) - 1) + (index : ℚ))

/-- Coefficient c of the interpolating parabola in refineResultIndex. -/
def refineC (index : ℕ) (data : List ℚ) : ℚ :=
  data.getD (index - 1) 0 * (index : ℚ) * ((index : ℚ) + 1) / 2
    - data.getD index 0 * ((index : ℚ) - 1) * ((index : ℚ) + 1)
    + data.getD (index + 1) 0 * ((index : ℚ) - 1) * (index : ℚ) / 2

/-- Source function refineResultIndex: the vertex abscissa -b / (2a) of the
parabola through the chosen index and its two neighbours, paired with the
parabola value there.  Rational division by zero yields 0 here; the theorem
for claim C6 shows the denominators are never zero on the indices findPitch
selects. -/
def refineResultIndex (index : ℕ) (data : List ℚ) : ℚ × ℚ :=
  let a := refineA index data
  let b := refineB index data
  let c := refineC index data
  let xMax := -b / (2 * a)
  let yMax := a * xMax * xMax + b * xMax + c
  (xMax, yMax)

/-- Configuration and fixed input length of a PitchDetector instance.
Defaults are those of the source class fields. -/
structure PitchDetector where
  inputLength : ℕ
  clarityThreshold : ℚ := 9 / 10
  minVolumeAbsolute : ℚ := 0
  maxInputAmplitude : ℚ := 1
deriving DecidableEq, Repr

/-- Sum of the squares of the input samples, as accumulated by the loop of
the source method belowMinimumVolume. -/
def squareSum (x : List ℚ) : ℚ := x.foldl (fun s v => s + v ^ 2) 0

/-- Source method belowMinimumVolume: false when the configured minimum
volume is zero, otherwise the comparison sqrt (squareSum / length) <
minVolumeAbsolute.  The real square-root comparison is rendered exactly over
the rationals: for the nonnegative radicand s, sqrt s < v holds iff 0 < v
and s < v^2; for an empty input the radicand is 0/0 = NaN in JavaScript and
the comparison is false. -/
def belowMinimumVolume (d : PitchDetector) (input : List ℚ) : Bool :=
  if d.minVolumeAbsolute = 0 then false
  else if input.length = 0 then false
  else decide (0 < d.minVolumeAbsolute ∧
      squareSum input / (input.length : ℚ) < d.minVolumeAbsolute ^ 2)

/-- Error thrown by the source autocorrelate method on an input whose length
differs from the configured one. -/
inductive PitchError where
  | wrongLength (expected got : ℕ)
deriving DecidableEq, Repr

deriving instance DecidableEq for Except

/-- Maximum of a list of rationals with a starting value, modelling the
spread Math.max over the nsdf values at the key-maximum indices. -/
def maxFrom (start : ℚ) (l : List ℚ) : ℚ := l.foldl max start

/-- The highest key maximum nMax of findPitch, for a key-maximum index list
with head k0 and tail ks: the spread Math.max over the nsdf values at the
key-maximum indices. -/
def nMaxOf (nsdfB : List ℚ) (k0 : ℕ) (ks : List ℕ) : ℚ :=
  maxFrom (nsdfB.getD k0 0) (ks.map fun i => nsdfB.getD i 0)

/-- Selection step of findPitch: the first key-maximum index whose nsdf
value reaches clarityThreshold * nMax, or none when there are no key maxima
at all.  The theorem for claim C5 shows that whenever the key-maximum list
is nonempty the search succeeds, so for a nonempty list none is never
returned (matching the non-null assertion of the source). -/
def chooseResultIndex (clarityThreshold : ℚ) (nsdfB : List ℚ) : Option ℕ :=
  match getKeyMaximumIndices nsdfB with
  | [] => none
  | k0 :: ks =>
    (k0 :: ks).find? fun i =>
      decide (clarityThreshold * nMaxOf nsdfB k0 ks ≤ nsdfB.getD i 0)

/-- Source method findPitch.  The volume gate runs first; then the nsdf
computation whose inner autocorrelate call throws when the input length is
not the configured one; then the key-maximum scan, the clarity-threshold
selection and the parabolic refinement.  An empty key-maximum list yields
the sentinel (0, 0). -/
def findPitch (d : PitchDetector) (input : List ℚ) (sampleRate : ℚ) :
    Except PitchError (ℚ × ℚ) :=
  if belowMinimumVolume d input = true then .ok (0, 0)
  else if input.length ≠ d.inputLength then
    .error (.wrongLength d.inputLength input.length)
  else
    let nsdfB := nsdfBuffer input
    match chooseResultIndex d.clarityThreshold nsdfB with
    | none => .ok (0, 0)
    | some k =>
      let r := refineResultIndex k nsdfB
      .ok (sampleRate / r.1, min r.2 1)

/-!
Model of the external FFT collaborator.  The repository consumes the fft.js
package as a black box; the specification describes its contract: a forward
real transform whose completed spectrum is the full discrete Fourier
transform of the input, and an inverse complex transform with 1/size
normalisation.  Under exact arithmetic this contract determines the
transforms exactly, so they are modelled as the exact DFT over the complex
numbers, on indices in ZMod n with the standard character
stdAddChar j = exp (2 pi I j / n).
-/

/-- Modelled from the spec: the forward transform of the FFT collaborator
(realTransform followed by completeSpectrum), namely the full discrete
Fourier transform with the usual convention
(dftc f) k = sum over j of f j * exp (-2 pi I j k / n). -/
noncomputable def dftc {n : ℕ} [NeZero n] (f : ZMod n → ℂ) (k : ZMod n) : ℂ :=
  ∑ j : ZMod n, f j * ZMod.stdAddChar (-(j * k))

/-- Modelled from the spec: the inverse transform of the FFT collaborator
(inverseTransform), including the 1/size normalisation:
(idftc f) k = (1/n) * sum over j of f j * exp (2 pi I j k / n). -/
noncomputable def idftc {n : ℕ} [NeZero n] (f : ZMod n → ℂ) (k : ZMod n) : ℂ :=
  (n : ℂ)⁻¹ * ∑ j : ZMod n, f j * ZMod.stdAddChar (j * k)

/-- Contents of the padded input buffer after step 0 of autocorrelate, viewed
as a function on ZMod n: the input samples in cells 0 .. length-1 and zeros
in the remaining cells (getD returns the default 0 beyond the input). -/
noncomputable def paddedFun (n : ℕ) [NeZero n] (x : List ℚ) : ZMod n → ℂ :=
  fun j => ((x.getD j.val 0 : ℚ) : ℂ)

/-- Step 2 of autocorrelate: each complex bin (re, im) is replaced by
(re^2 + im^2, 0), that is by the bin times its own conjugate. -/
noncomputable def powerSpectrumFun {n : ℕ} [NeZero n] (f : ZMod n → ℂ) :
    ZMod n → ℂ :=
  fun k => f k * (starRingEnd ℂ) (f k)

/-- The FFT size is positive: ceilPow2 always returns a successor. -/
instance instNeZeroFftSize (N : ℕ) : NeZero (fftSize N) :=
  ⟨Nat.succ_ne_zero _⟩

/-- The value autocorrelate writes into output[tau] under the FFT contract
and exact arithmetic: the real part of cell 2*tau of the inverse buffer,
i.e. the real part of complex entry tau of the inverse transform of the
power spectrum of the padded input. -/
noncomputable def autocorrelateFFT (N : ℕ) (x : List ℚ) (τ : ℕ) : ℝ :=
  (idftc (powerSpectrumFun (dftc (paddedFun (fftSize N) x)))
    ((τ : ℕ) : ZMod (fftSize N))).re

/-!
Stateful model of the scratch buffers, for the buffer-hygiene claim.  The
source holds the padded-input and nsdf buffers across calls with unspecified
contents; the loops that fill them are modelled cell by cell with List.set,
starting from arbitrary previous contents.
-/

/-- First loop of step 0 of autocorrelate: write input[i] into cell i of the
padded input buffer for every i below the input length. -/
def writeInputLoop (buf input : List ℚ) : List ℚ :=
  (List.range input.length).foldl (fun b i => b.set i (input.getD i 0)) buf

/-- Zero-filling loop: write 0 into every cell from start to the end of the
buffer (second loop of step 0 of autocorrelate, and the trailing loop of
nsdf). -/
def zeroTailLoop (buf : List ℚ) (start : ℕ) : List ℚ :=
  (List.range' start (buf.length - start)).foldl (fun b i => b.set i 0) buf

/-- Step 0 of autocorrelate on the padded input buffer: copy the input into
the low cells, zero the rest. -/
def stepPad (buf input : List ℚ) : List ℚ :=
  zeroTailLoop (writeInputLoop buf input) input.length

/-- Circular autocorrelation of the padded buffer: the exact value held in
the even cells of the inverse buffer after steps 1-3 of autocorrelate (the
DFT correlation theorem; see the dft lemmas below). -/
def circAutocorr (pb : List ℚ) (τ : ℕ) : ℚ :=
  ∑ j ∈ Finset.range pb.length, pb.getD j 0 * pb.getD ((j + τ) % pb.length) 0

/-- Final loop of autocorrelate: write vals i into cell i of the output
buffer for every i below n. -/
def writeOutputLoop (out : List ℚ) (vals : ℕ → ℚ) (n : ℕ) : List ℚ :=
  (List.range n).foldl (fun b i => b.set i (vals i)) out

/-- Stateful model of Autocorrelator.autocorrelate for an instance with
configured input length N: throw WrongLength on a mismatched input,
otherwise refill the padded buffer from its previous contents pb, run the
FFT steps (whose exact result on the refilled buffer is its circular
autocorrelation), and write the first input.length lags into the output
buffer over its previous contents.  Returns the new padded buffer and the
written output buffer. -/
def autocorrelateSt (N : ℕ) (pb out input : List ℚ) :
    Except PitchError (List ℚ × List ℚ) :=
  if input.length ≠ N then .error (.wrongLength N input.length)
  else
    let pb1 := stepPad pb input
    .ok (pb1, writeOutputLoop out (fun i => circAutocorr pb1 i) input.length)

/-- First loop of the source nsdf method operating in place on the buffer:
at position i with running value m, while 0 < m overwrite cell i with
2 * buffer[i] / m and decrement m; once m fails to be positive, zero-fill
the rest of the buffer.  The fuel argument counts the remaining cells, so
the loop also stops at the end of the buffer. -/
def nsdfLoopSt (x : List ℚ) : ℕ → ℕ → ℚ → List ℚ → List ℚ
  | 0, _, _, nb => nb
  | fuel + 1, i, m, nb =>
    if 0 < m then
      nsdfLoopSt x fuel (i + 1)
        (m - ((x.getD i 0) ^ 2 + (x.getD (x.length - i - 1) 0) ^ 2))
        (nb.set i (2 * nb.getD i 0 / m))
    else zeroTailLoop nb i

/-- Stateful model of PitchDetector.nsdf: autocorrelate into the nsdf buffer
(over its previous contents), then rewrite it in place with the two nsdf
loops.  Returns the new padded buffer and the new nsdf buffer. -/
def nsdfSt (N : ℕ) (pb nb input : List ℚ) :
    Except PitchError (List ℚ × List ℚ) :=
  match autocorrelateSt N pb nb input with
  | .error e => .error e
  | .ok (pb1, nb1) =>
    .ok (pb1, nsdfLoopSt input nb1.length 0 (2 * nb1.getD 0 0) nb1)

/-- A PitchDetector instance together with the current contents of its
owned scratch buffers (the padded input buffer of its autocorrelator and
the nsdf buffer). -/
structure DetectorState where
  config : PitchDetector
  paddedBuf : List ℚ
  nsdfBuf : List ℚ
deriving DecidableEq, Repr

/-- Stateful model of findPitch, threading the scratch buffers: the volume
gate, then nsdf (which throws on a wrong-length input), then the
key-maximum scan, selection and refinement on the updated nsdf buffer.
Returns the result together with the post-call state. -/
def findPitchSt (st : DetectorState) (input : List ℚ) (sampleRate : ℚ) :
    Except PitchError ((ℚ × ℚ) × DetectorState) :=
  if belowMinimumVolume st.config input = true then .ok ((0, 0), st)
  else
    match nsdfSt st.config.inputLength st.paddedBuf st.nsdfBuf input with
    | .error e => .error e
    | .ok (pb1, nb2) =>
      let st1 : DetectorState := ⟨st.config, pb1, nb2⟩
      match chooseResultIndex st.config.clarityThreshold nb2 with
      | none => .ok ((0, 0), st1)
      | some k =>
        let r := refineResultIndex k nb2
        .ok ((sampleRate / r.1, min r.2 1), st1)

/-- Facts holding of every index committed by the key-maximum scanner: it
and both neighbours are valid indices, the value there is positive, the left
neighbour is strictly below it and the right neighbour at most it. -/
def KeyProp (data : List ℚ) (k : ℕ) : Prop :=
  1 ≤ k ∧ k + 2 ≤ data.length ∧ 0 < data.getD k 0 ∧
    data.getD (k - 1) 0 < data.getD k 0 ∧ data.getD (k + 1) 0 ≤ data.getD k 0

/-- Loop invariant of the key-maximum scan, holding before the iteration at
index i: committed indices satisfy KeyProp; a recorded running-maximum index
is an already visited index holding a positive value that strictly exceeds
its left neighbour and, once its right neighbour has been visited, is at
least that neighbour; while looking, the running maximum value is the value
at the recorded index and at least the previous cell; when not looking, any
recorded index was committed strictly before the previous cell. -/
def ScanInv (data : List ℚ) (i : ℕ) (s : ScanState) : Prop :=
  (∀ k ∈ s.keyIndices, KeyProp data k) ∧
  (∀ k, s.maxIndex = some k →
      1 ≤ k ∧ k < i ∧ 0 < data.getD k 0 ∧ data.getD (k - 1) 0 < data.getD k 0 ∧
        (k + 1 < i → data.getD (k + 1) 0 ≤ data.getD k 0)) ∧
  (s.looking = true →
      ∃ k, s.maxIndex = some k ∧ s.maxVal = ((data.getD k 0 : ℚ) : WithBot ℚ) ∧
        ((data.getD (i - 1) 0 : ℚ) : WithBot ℚ) ≤ s.maxVal) ∧
  (s.looking = false → ∀ k, s.maxIndex = some k → k + 1 < i)

/-!
Lemmas about the key-maximum scan.
-/

lemma scanStep_inv (data : List ℚ) (i : ℕ) (s : ScanState)
    (h1 : 1 ≤ i) (h2 : i + 2 ≤ data.length) (hs : ScanInv data i s) :
    ScanInv data (i + 1) (scanStep data s i) := by
  obtain ⟨hKeys, hMax, hLook, hNotLook⟩ := hs
  unfold scanStep
  split_ifs with hpos hneg hupd
  · -- positively sloped zero crossing
    refine ⟨hKeys, ?_, ?_, ?_⟩
    · intro k hk
      simp only at hk
      cases hk
      refine ⟨h1, by omega, hpos.2, ?_, by omega⟩
      exact lt_of_le_of_lt hpos.1 hpos.2
    · intro _
      exact ⟨i, rfl, rfl, by simp⟩
    · intro h
      simp at h
  · -- negatively sloped zero crossing
    have hcommit : ∀ k, s.maxIndex = some k → KeyProp data k := by
      intro k hk
      obtain ⟨hk1, hki, hkpos, hkl, hkr⟩ := hMax k hk
      refine ⟨hk1, by omega, hkpos, hkl, ?_⟩
      rcases Nat.lt_or_ge (k + 1) i with h | h
      · exact hkr h
      · have : k + 1 = i := by omega
        rw [this]
        exact le_of_lt (lt_of_le_of_lt hneg.2 hkpos)
    refine ⟨?_, ?_, ?_, ?_⟩
    · intro k hk
      simp only at hk
      rcases hmi : s.maxIndex with _ | k0
      · rw [hmi] at hk
        exact hKeys k hk
      · rw [hmi] at hk
        simp only [List.mem_append, List.mem_singleton] at hk
        rcases hk with hk | hk
        · exact hKeys k hk
        · subst hk
          exact hcommit k hmi
    · intro k hk
      simp only at hk
      obtain ⟨hk1, hki, hkpos, hkl, hkr⟩ := hMax k hk
      have := hcommit k hk
      exact ⟨hk1, by omega, hkpos, hkl, fun _ => this.2.2.2.2⟩
    · intro h
      simp at h
    · intro _ k hk
      simp only at hk
      have := hMax k hk
      omega
  · -- running maximum update while looking
    obtain ⟨k0, hk0, hmv, hprev⟩ := hLook hupd.1
    have hk0' := hMax k0 hk0
    have hlt : data.getD k0 0 < data.getD i 0 := by
      rw [hmv] at hupd
      exact_mod_cast hupd.2
    have hprev' : data.getD (i - 1) 0 ≤ data.getD k0 0 := by
      rw [hmv] at hprev
      exact_mod_cast hprev
    refine ⟨hKeys, ?_, ?_, ?_⟩
    · intro k hk
      simp only at hk
      cases hk
      refine ⟨h1, by omega, lt_trans hk0'.2.2.1 hlt, ?_, by omega⟩
      exact lt_of_le_of_lt hprev' hlt
    · intro _
      exact ⟨i, rfl, rfl, by simp⟩
    · intro h
      simp only at h
      rw [h] at hupd
      exact absurd hupd.1 (by simp)
  · -- no branch taken
    refine ⟨hKeys, ?_, ?_, ?_⟩
    · intro k hk
      obtain ⟨hk1, hki, hkpos, hkl, hkr⟩ := hMax k hk
      refine ⟨hk1, by omega, hkpos, hkl, ?_⟩
      intro hlt
      rcases Nat.lt_or_ge (k + 1) i with h | h
      · exact hkr h
      · have hik : i = k + 1 := by omega
        rcases hbool : s.looking with _ | _
        · have := hNotLook hbool k hk
          omega
        · obtain ⟨k1, hk1', hmv, _⟩ := hLook hbool
          rw [hk1'] at hk
          injection hk with hk
          subst hk
          have : ¬ s.maxVal < ((data.getD i 0 : ℚ) : WithBot ℚ) := fun hc =>
            hupd ⟨hbool, hc⟩
          rw [hmv] at this
          rw [← hik]
          exact_mod_cast not_lt.mp this
    · intro hb
      obtain ⟨k1, hk1', hmv, _⟩ := hLook hb
      have : ¬ s.maxVal < ((data.getD i 0 : ℚ) : WithBot ℚ) := fun hc =>
        hupd ⟨hb, hc⟩
      exact ⟨k1, hk1', hmv, by simpa using not_lt.mp this⟩
    · intro hb k hk
      have := hNotLook hb k hk
      omega

lemma scan_foldl_inv (data : List ℚ) :
    ∀ (cnt start : ℕ) (s : ScanState), ScanInv data start s → 1 ≤ start →
      start + cnt + 1 ≤ data.length →
      ScanInv data (start + cnt) ((List.range' start cnt).foldl (scanStep data) s)
  | 0, start, s, hs, _, _ => by simpa using hs
  | cnt + 1, start, s, hs, h1, h2 => by
    rw [List.range'_succ, List.foldl_cons]
    have hstep := scanStep_inv data start s h1 (by omega) hs
    have := scan_foldl_inv data cnt (start + 1) (scanStep data s start) hstep
      (by omega) (by omega)
    simpa [Nat.add_assoc, Nat.add_comm 1 cnt] using this

lemma scanInv_start (data : List ℚ) (i : ℕ) : ScanInv data i scanStart := by
  refine ⟨?_, ?_, ?_, ?_⟩ <;> simp [scanStart, KeyProp]

/-- Every index returned by getKeyMaximumIndices satisfies KeyProp. -/
lemma keyMaximumIndices_spec (data : List ℚ) :
    ∀ k ∈ getKeyMaximumIndices data, KeyProp data k := by
  intro k hk
  unfold getKeyMaximumIndices at hk
  rcases Nat.eq_zero_or_pos (data.length - 2) with hz | hpos
  · rw [hz] at hk
    simp [scanStart] at hk
  · have h2 : 1 + (data.length - 2) + 1 ≤ data.length := by omega
    have := scan_foldl_inv data (data.length - 2) 1 scanStart
      (scanInv_start data 1) le_rfl h2
    exact this.1 k hk

/-- Arrays with at most three entries produce no key maxima: the scan visits
at most one index and a lone visit can never commit. -/
lemma keyMaximumIndices_short (data : List ℚ) (h : data.length ≤ 3) :
    getKeyMaximumIndices data = [] := by
  unfold getKeyMaximumIndices
  rcases hl : data.length - 2 with _ | n
  · simp [scanStart]
  · have hn : n = 0 := by omega
    subst hn
    rw [List.range'_one]
    simp only [List.foldl_cons, List.foldl_nil]
    unfold scanStep
    split_ifs <;> simp [scanStart]

/-!
Lemmas about the nsdf computation.
-/

lemma nsdfFill_length (x : List ℚ) : ∀ (k i : ℕ) (m : ℚ), (nsdfFill x k i m).length = k
  | 0, _, _ => rfl
  | k + 1, i, m => by
    unfold nsdfFill
    split_ifs
    · simp [nsdfFill_length x k]
    · simp

lemma nsdfBuffer_length (x : List ℚ) : (nsdfBuffer x).length = x.length :=
  nsdfFill_length x x.length 0 _

lemma nsdfFill_getD (x : List ℚ) : ∀ (k : ℕ) (i : ℕ) (t : ℕ), t < k →
    (nsdfFill x k i (mprime x i)).getD t 0 =
      if ∀ j, i ≤ j → j ≤ i + t → 0 < mprime x j then
        2 * autocorr x (i + t) / mprime x (i + t)
      else 0
  | 0, _, _, ht => absurd ht (Nat.not_lt_zero _)
  | k + 1, i, t, ht => by
    unfold nsdfFill
    split_ifs with hm hall hall
    · -- the running value is positive and stays positive up to t
      rcases t with _ | t
      · simp
      · have hrec : mprime x i - ((x.getD i 0) ^ 2 + (x.getD (x.length - i - 1) 0) ^ 2)
            = mprime x (i + 1) := rfl
        rw [List.getD_cons_succ, hrec, nsdfFill_getD x k (i + 1) t (by omega)]
        have hcond : ∀ j, i + 1 ≤ j → j ≤ i + 1 + t → 0 < mprime x j := by
          intro j hj1 hj2
          exact hall j (by omega) (by omega)
        rw [if_pos hcond]
        have : i + 1 + t = i + (t + 1) := by omega
        rw [this]
    · -- the running value is positive here but fails later
      rcases t with _ | t
      · exact absurd (fun j h1 h2 => by
          have : j = i := by omega
          rw [this]; exact hm) hall
      · have hrec : mprime x i - ((x.getD i 0) ^ 2 + (x.getD (x.length - i - 1) 0) ^ 2)
            = mprime x (i + 1) := rfl
        rw [List.getD_cons_succ, hrec, nsdfFill_getD x k (i + 1) t (by omega)]
        have hcond : ¬ ∀ j, i + 1 ≤ j → j ≤ i + 1 + t → 0 < mprime x j := by
          intro hc
          exact hall fun j h1 h2 => by
            rcases Nat.eq_or_lt_of_le h1 with h | h
            · rw [← h]; exact hm
            · exact hc j h (by omega)
        rw [if_neg hcond]
    · -- the running value already failed at position i
      exact absurd (hall i le_rfl (by omega)) hm
    · -- zero fill once the running value failed
      simp [List.getD]

/-!
Lemmas about all-zero inputs.
-/

lemma getD_zero_of_all_zero {x : List ℚ} (hx : ∀ v ∈ x, v = 0) (j : ℕ) :
    x.getD j 0 = 0 := by
  rcases Nat.lt_or_ge j x.length with h | h
  · rw [List.getD_eq_getElem x 0 h]
    exact hx _ (List.getElem_mem h)
  · exact List.getD_eq_default x 0 h

lemma autocorr_all_zero {x : List ℚ} (hx : ∀ v ∈ x, v = 0) (τ : ℕ) :
    autocorr x τ = 0 := by
  unfold autocorr
  refine Finset.sum_eq_zero fun j _ => ?_
  rw [getD_zero_of_all_zero hx j, zero_mul]

lemma nsdfBuffer_all_zero {x : List ℚ} (hx : ∀ v ∈ x, v = 0) :
    nsdfBuffer x = List.replicate x.length 0 := by
  unfold nsdfBuffer
  rcases hl : x.length with _ | n
  · rfl
  · unfold nsdfFill
    rw [autocorr_all_zero hx 0]
    norm_num

lemma scanStep_all_zero {data : List ℚ} (hd : ∀ v ∈ data, v = 0) (i : ℕ) :
    scanStep data scanStart i = scanStart := by
  unfold scanStep
  rw [getD_zero_of_all_zero hd i, getD_zero_of_all_zero hd (i - 1)]
  norm_num [scanStart]

lemma getKeyMaximumIndices_all_zero {data : List ℚ} (hd : ∀ v ∈ data, v = 0) :
    getKeyMaximumIndices data = [] := by
  unfold getKeyMaximumIndices
  have : ∀ (l : List ℕ), l.foldl (scanStep data) scanStart = scanStart := by
    intro l
    induction l with
    | nil => rfl
    | cons a t ih => rw [List.foldl_cons, scanStep_all_zero hd, ih]
  rw [this]
  rfl

lemma squareSum_all_zero {x : List ℚ} (hx : ∀ v ∈ x, v = 0) : squareSum x = 0 := by
  unfold squareSum
  induction x with
  | nil => rfl
  | cons a t ih =>
    have ha := hx a (List.mem_cons_self a t)
    rw [List.foldl_cons, ha]
    norm_num
    exact ih fun v hv => hx v (List.mem_cons_of_mem a hv)

/-- C4: every index returned by the key-maximum scanner lies strictly within
[1, N-2], so the index and both of its neighbours are valid indices and
parabolic refinement of a returned index never reads out of bounds. -/
theorem keyMaximumIndices_in_bounds (data : List ℚ) :
    ∀ k ∈ getKeyMaximumIndices data,
      1 ≤ k ∧ k + 2 ≤ data.length ∧ k - 1 < data.length ∧ k < data.length ∧
        k + 1 < data.length := by
  intro k hk
  obtain ⟨h1, h2, _⟩ := keyMaximumIndices_spec data k hk
  exact ⟨h1, h2, by omega, by omega, by omega⟩

theorem keyMaximumIndices_in_bounds_witness :
    (1 : ℕ) ∈ getKeyMaximumIndices [-1, 1, -1, 0] ∧
      (1 ≤ 1 ∧ 1 + 2 ≤ ([-1, 1, -1, 0] : List ℚ).length ∧
        1 - 1 < ([-1, 1, -1, 0] : List ℚ).length ∧
        1 < ([-1, 1, -1, 0] : List ℚ).length ∧
        1 + 1 < ([-1, 1, -1, 0] : List ℚ).length) :=
  ⟨by decide, keyMaximumIndices_in_bounds [-1, 1, -1, 0] 1 (by decide)⟩

/-- C10: a detector with input length at most three returns the sentinel for
every matching input that passes the volume gate, because the key-maximum
scan can never commit a candidate within its range. -/
theorem findPitch_short_input (d : PitchDetector) (input : List ℚ) (sr : ℚ)
    (hN : d.inputLength ≤ 3) (hl : input.length = d.inputLength)
    (hv : belowMinimumVolume d input = false) :
    findPitch d input sr = .ok (0, 0) ∧
      getKeyMaximumIndices (nsdfBuffer input) = [] := by
  have hkey : getKeyMaximumIndices (nsdfBuffer input) = [] :=
    keyMaximumIndices_short _ (by rw [nsdfBuffer_length]; omega)
  constructor
  · unfold findPitch
    rw [hv]
    simp only [Bool.false_eq_true, if_false, hl, ne_eq, not_true_eq_false,
      if_false]
    unfold chooseResultIndex
    rw [hkey]
  · exact hkey

theorem findPitch_short_input_witness :
    (⟨3, 9/10, 0, 1⟩ : PitchDetector).inputLength ≤ 3 ∧
      ([1, 2, 3] : List ℚ).length = (⟨3, 9/10, 0, 1⟩ : PitchDetector).inputLength ∧
      belowMinimumVolume ⟨3, 9/10, 0, 1⟩ [1, 2, 3] = false ∧
      findPitch ⟨3, 9/10, 0, 1⟩ [1, 2, 3] 5 = .ok (0, 0) ∧
      getKeyMaximumIndices (nsdfBuffer [1, 2, 3]) = [] :=
  ⟨by decide, by decide, by decide,
    findPitch_short_input ⟨3, 9/10, 0, 1⟩ [1, 2, 3] 5 (by decide) (by decide)
      (by decide)⟩


/-- C2: after the nsdf step the buffer holds 2 r'(tau) / m'(tau) for every
lag reached while the running value stays strictly positive and 0 for every
remaining lag; an all-zero input yields an all-zero buffer. -/
theorem nsdfBuffer_spec (x : List ℚ) :
    ((nsdfBuffer x).length = x.length ∧
      ∀ τ, τ < x.length →
        (nsdfBuffer x).getD τ 0 =
          if ∀ j, j ≤ τ → 0 < mprime x j then 2 * autocorr x τ / mprime x τ
          else 0) ∧
    ((∀ v ∈ x, v = 0) → nsdfBuffer x = List.replicate x.length 0) := by
  refine ⟨⟨nsdfBuffer_length x, fun τ hτ => ?_⟩, nsdfBuffer_all_zero⟩
  have h0 : (2 * autocorr x 0 : ℚ) = mprime x 0 := rfl
  unfold nsdfBuffer
  rw [h0, nsdfFill_getD x x.length 0 τ hτ]
  simp only [Nat.zero_add, Nat.zero_le, true_implies]

theorem nsdfBuffer_spec_witness :
    (1 : ℕ) < ([1, 2] : List ℚ).length ∧
      (nsdfBuffer [1, 2]).getD 1 0 =
        if ∀ j, j ≤ 1 → 0 < mprime [1, 2] j then
          2 * autocorr [1, 2] 1 / mprime [1, 2] 1
        else 0 :=
  ⟨by decide, ((nsdfBuffer_spec [1, 2]).1.2) 1 (by decide)⟩

/-- C8: an all-zero window of the configured length produces the sentinel
(0, 0) with no error, for every configuration and sample rate; the nsdf
buffer is entirely zeroed and the key-maximum list is empty. -/
theorem findPitch_all_zero (d : PitchDetector) (sr : ℚ) :
    findPitch d (List.replicate d.inputLength 0) sr = .ok (0, 0) ∧
      nsdfBuffer (List.replicate d.inputLength 0) =
        List.replicate d.inputLength 0 ∧
      getKeyMaximumIndices (nsdfBuffer (List.replicate d.inputLength 0)) = [] := by
  have hzero : ∀ v ∈ List.replicate d.inputLength (0 : ℚ), v = 0 := fun v hv =>
    List.eq_of_mem_replicate hv
  have hbuf : nsdfBuffer (List.replicate d.inputLength (0 : ℚ)) =
      List.replicate d.inputLength 0 := by
    have := nsdfBuffer_all_zero hzero
    rwa [List.length_replicate] at this
  have hkey :
      getKeyMaximumIndices (nsdfBuffer (List.replicate d.inputLength (0 : ℚ))) = [] := by
    rw [hbuf]
    exact getKeyMaximumIndices_all_zero hzero
  refine ⟨?_, hbuf, hkey⟩
  unfold findPitch
  rcases hgate : belowMinimumVolume d (List.replicate d.inputLength 0) with _ | _
  · simp only [Bool.false_eq_true, if_false, List.length_replicate, ne_eq,
      not_true_eq_false, if_false]
    unfold chooseResultIndex
    rw [hkey]
  · simp

/-- C7: with a positive configured minimum volume, an input whose root mean
square lies strictly below it (equivalently, whose mean square lies below
its square) makes findPitch return exactly (0, 0) through the volume gate,
before the nsdf pipeline; with minimum volume 0 the gate never fires. -/
theorem findPitch_volume_gate (d : PitchDetector) (input : List ℚ) (sr : ℚ) :
    (0 < d.minVolumeAbsolute → 1 ≤ input.length →
      squareSum input / (input.length : ℚ) < d.minVolumeAbsolute ^ 2 →
      belowMinimumVolume d input = true ∧ findPitch d input sr = .ok (0, 0)) ∧
    (d.minVolumeAbsolute = 0 → belowMinimumVolume d input = false) := by
  constructor
  · intro hpos hlen hrms
    have hgate : belowMinimumVolume d input = true := by
      unfold belowMinimumVolume
      rw [if_neg (ne_of_gt hpos), if_neg (by omega)]
      exact decide_eq_true ⟨hpos, hrms⟩
    refine ⟨hgate, ?_⟩
    unfold findPitch
    rw [hgate]
    simp
  · intro h0
    unfold belowMinimumVolume
    rw [if_pos h0]

theorem findPitch_volume_gate_witness :
    0 < (⟨2, 1, 1, 1⟩ : PitchDetector).minVolumeAbsolute ∧
      1 ≤ ([0, 0] : List ℚ).length ∧
      squareSum [0, 0] / (([0, 0] : List ℚ).length : ℚ) <
        (⟨2, 1, 1, 1⟩ : PitchDetector).minVolumeAbsolute ^ 2 ∧
      (belowMinimumVolume ⟨2, 1, 1, 1⟩ [0, 0] = true ∧
        findPitch ⟨2, 1, 1, 1⟩ [0, 0] 44100 = .ok (0, 0)) :=
  ⟨by decide, by decide, by with_unfolding_all decide,
    (findPitch_volume_gate ⟨2, 1, 1, 1⟩ [0, 0] 44100).1 (by decide)
      (by decide) (by with_unfolding_all decide)⟩

/-- C3 as stated is false: the volume gate runs before the length check, so
a wrong-length input that falls below a positive configured minimum volume
returns the sentinel silently instead of failing with WrongLength.  Concrete
counterexample: a detector of input length 2 with minimum volume 1/2 on the
all-zero input of length 3. -/
theorem findPitch_quiet_wrongLength_silent :
    (([0, 0, 0] : List ℚ).length ≠ (⟨2, 9/10, 1/2, 1⟩ : PitchDetector).inputLength) ∧
      0 < (⟨2, 9/10, 1/2, 1⟩ : PitchDetector).minVolumeAbsolute ∧
      findPitch ⟨2, 9/10, 1/2, 1⟩ [0, 0, 0] 44100 = .ok (0, 0) := by
  with_unfolding_all decide

/-- C3 amended: whenever the volume gate does not fire (in particular
whenever the configured minimum volume is zero), findPitch on an input whose
length differs from the configured one fails with the WrongLength error. -/
theorem findPitch_wrongLength_error (d : PitchDetector) (input : List ℚ)
    (sr : ℚ) (hv : belowMinimumVolume d input = false)
    (hl : input.length ≠ d.inputLength) :
    findPitch d input sr = .error (.wrongLength d.inputLength input.length) := by
  unfold findPitch
  rw [hv]
  simp [hl]

theorem findPitch_wrongLength_error_witness :
    belowMinimumVolume ⟨8, 9/10, 0, 1⟩ [1, 2, 3] = false ∧
      ([1, 2, 3] : List ℚ).length ≠ (⟨8, 9/10, 0, 1⟩ : PitchDetector).inputLength ∧
      findPitch ⟨8, 9/10, 0, 1⟩ [1, 2, 3] 5 =
        .error (.wrongLength (⟨8, 9/10, 0, 1⟩ : PitchDetector).inputLength
          ([1, 2, 3] : List ℚ).length) :=
  ⟨by decide, by decide,
    findPitch_wrongLength_error ⟨8, 9/10, 0, 1⟩ [1, 2, 3] 5 (by decide) (by decide)⟩


lemma le_maxFrom (start : ℚ) (l : List ℚ) : start ≤ maxFrom start l := by
  induction l generalizing start with
  | nil => exact le_refl start
  | cons a t ih =>
    unfold maxFrom at ih ⊢
    rw [List.foldl_cons]
    exact le_trans (le_max_left start a) (ih (max start a))

lemma maxFrom_mem (start : ℚ) (l : List ℚ) :
    maxFrom start l = start ∨ maxFrom start l ∈ l := by
  induction l generalizing start with
  | nil => exact Or.inl rfl
  | cons a t ih =>
    unfold maxFrom at ih ⊢
    rw [List.foldl_cons]
    rcases ih (max start a) with h | h
    · rcases max_choice start a with hm | hm
      · left
        rw [h, hm]
      · right
        rw [h, hm]
        exact List.mem_cons_self a t
    · exact Or.inr (List.mem_cons_of_mem a h)

/-- C5: whenever the key-maximum list is nonempty and the clarity threshold
lies in (0, 1], some key-maximum index meets the threshold (the one
achieving nMax does), so the selection of findPitch always succeeds and
returns a key-maximum index meeting the threshold. -/
theorem chooseResultIndex_succeeds (th : ℚ) (nsdfB : List ℚ) (k0 : ℕ)
    (ks : List ℕ) (_h0 : 0 < th) (h1 : th ≤ 1)
    (hkey : getKeyMaximumIndices nsdfB = k0 :: ks) :
    ∃ k, chooseResultIndex th nsdfB = some k ∧
      k ∈ getKeyMaximumIndices nsdfB ∧
      th * nMaxOf nsdfB k0 ks ≤ nsdfB.getD k 0 := by
  have hposvals : ∀ k ∈ getKeyMaximumIndices nsdfB, 0 < nsdfB.getD k 0 :=
    fun k hk => (keyMaximumIndices_spec nsdfB k hk).2.2.1
  have hk0pos : 0 < nsdfB.getD k0 0 :=
    hposvals k0 (by rw [hkey]; exact List.mem_cons_self k0 ks)
  have hnmax_ge : nsdfB.getD k0 0 ≤ nMaxOf nsdfB k0 ks := le_maxFrom _ _
  have hnmax_pos : 0 < nMaxOf nsdfB k0 ks := lt_of_lt_of_le hk0pos hnmax_ge
  have hattained : ∃ i ∈ k0 :: ks, nsdfB.getD i 0 = nMaxOf nsdfB k0 ks := by
    rcases maxFrom_mem (nsdfB.getD k0 0) (ks.map fun i => nsdfB.getD i 0) with h | h
    · exact ⟨k0, List.mem_cons_self k0 ks, h.symm⟩
    · obtain ⟨i, hi, hv⟩ := List.mem_map.mp h
      exact ⟨i, List.mem_cons_of_mem k0 hi, hv⟩
  obtain ⟨i, hi_mem, hi_val⟩ := hattained
  have hi_sat : th * nMaxOf nsdfB k0 ks ≤ nsdfB.getD i 0 := by
    rw [hi_val]
    exact mul_le_of_le_one_left (le_of_lt hnmax_pos) h1
  have hchoose : chooseResultIndex th nsdfB =
      (k0 :: ks).find? fun i =>
        decide (th * nMaxOf nsdfB k0 ks ≤ nsdfB.getD i 0) := by
    unfold chooseResultIndex
    rw [hkey]
  have hsome : ((k0 :: ks).find? fun i =>
      decide (th * nMaxOf nsdfB k0 ks ≤ nsdfB.getD i 0)).isSome := by
    rw [List.find?_isSome]
    exact ⟨i, hi_mem, decide_eq_true hi_sat⟩
  obtain ⟨k, hk⟩ := Option.isSome_iff_exists.mp hsome
  refine ⟨k, by rw [hchoose, hk], ?_, ?_⟩
  · rw [hkey]
    exact List.mem_of_find?_eq_some hk
  · have hp := List.find?_some hk
    exact of_decide_eq_true hp

theorem chooseResultIndex_succeeds_witness :
    (0 : ℚ) < 1 ∧ (1 : ℚ) ≤ 1 ∧
      getKeyMaximumIndices [-1, 1, -1, 0] = [1] ∧
      ∃ k, chooseResultIndex 1 [-1, 1, -1, 0] = some k ∧
        k ∈ getKeyMaximumIndices [-1, 1, -1, 0] ∧
        1 * nMaxOf [-1, 1, -1, 0] 1 [] ≤ ([-1, 1, -1, 0] : List ℚ).getD k 0 :=
  ⟨by decide, by decide, by decide,
    chooseResultIndex_succeeds 1 [-1, 1, -1, 0] 1 [] (by decide) (by decide)
      (by decide)⟩

lemma refine_denominators (data : List ℚ) (k : ℕ) (hk : KeyProp data k) :
    refineA k data < 0 ∧ 0 < (refineResultIndex k data).1 := by
  obtain ⟨hk1, hk2, hpos, hl, hr⟩ := hk
  have ha : refineA k data < 0 := by
    unfold refineA
    linarith
  have h2a : 2 * refineA k data < 0 := by linarith
  have hx : (refineResultIndex k data).1 =
      -refineB k data / (2 * refineA k data) := rfl
  have hb : -refineB k data ≤ ((k : ℚ) - 1 / 2) * (2 * refineA k data) := by
    unfold refineA refineB
    ring_nf
    linarith [hl, hr]
  have hge : ((k : ℚ) - 1 / 2) ≤ (refineResultIndex k data).1 := by
    rw [hx, le_div_iff_of_neg h2a]
    exact hb
  have hk1q : (1 : ℚ) ≤ (k : ℚ) := by exact_mod_cast hk1
  exact ⟨ha, by linarith⟩

/-- C6: under exact arithmetic no division by zero occurs in findPitch:
for every input window and clarity threshold, any index selected for
parabolic refinement has a strictly negative leading coefficient a (so the
denominator 2a is nonzero) and a strictly positive refined abscissa (so the
pitch denominator is nonzero); hence both components of the result are
well-defined finite rationals. -/
theorem findPitch_no_division_by_zero (th : ℚ) (input : List ℚ) :
    ∀ k, chooseResultIndex th (nsdfBuffer input) = some k →
      refineA k (nsdfBuffer input) < 0 ∧
        2 * refineA k (nsdfBuffer input) ≠ 0 ∧
        0 < (refineResultIndex k (nsdfBuffer input)).1 := by
  intro k hk
  have hmem : k ∈ getKeyMaximumIndices (nsdfBuffer input) := by
    rcases hkey : getKeyMaximumIndices (nsdfBuffer input) with _ | ⟨k0, ks⟩
    · have hc : chooseResultIndex th (nsdfBuffer input) = none := by
        unfold chooseResultIndex
        rw [hkey]
      rw [hc] at hk
      cases hk
    · have hc : chooseResultIndex th (nsdfBuffer input) =
          (k0 :: ks).find? fun i =>
            decide (th * nMaxOf (nsdfBuffer input) k0 ks ≤
              (nsdfBuffer input).getD i 0) := by
        unfold chooseResultIndex
        rw [hkey]
      rw [hc] at hk
      exact List.mem_of_find?_eq_some hk
  obtain ⟨ha, hxpos⟩ :=
    refine_denominators (nsdfBuffer input) k (keyMaximumIndices_spec _ k hmem)
  exact ⟨ha, by linarith, hxpos⟩

theorem findPitch_no_division_by_zero_witness :
    chooseResultIndex 1 (nsdfBuffer [0, 1, 0, -1, 0, 1, 0, -1]) = some 4 ∧
      (refineA 4 (nsdfBuffer [0, 1, 0, -1, 0, 1, 0, -1]) < 0 ∧
        2 * refineA 4 (nsdfBuffer [0, 1, 0, -1, 0, 1, 0, -1]) ≠ 0 ∧
        0 < (refineResultIndex 4 (nsdfBuffer [0, 1, 0, -1, 0, 1, 0, -1])).1) :=
  ⟨by with_unfolding_all decide,
    findPitch_no_division_by_zero 1 [0, 1, 0, -1, 0, 1, 0, -1] 4
      (by with_unfolding_all decide)⟩

/-!
Lemmas for the FFT model: the discrete correlation theorem and the padding
argument turning circular correlation into the linear autocorrelation.
-/

lemma le_orShift (a s : ℕ) : a ≤ orShift a s := by
  unfold orShift
  apply Nat.le_of_testBit
  intro i h
  simp [Nat.testBit_or, h]

lemma le_ceilPow2 (v : ℕ) (hv : 1 ≤ v) : v ≤ ceilPow2 v := by
  unfold ceilPow2
  have h1 := le_orShift (v - 1) 1
  have h2 := le_orShift (orShift (v - 1) 1) 2
  have h3 := le_orShift (orShift (orShift (v - 1) 1) 2) 4
  have h4 := le_orShift (orShift (orShift (orShift (v - 1) 1) 2) 4) 8
  have h5 := le_orShift (orShift (orShift (orShift (orShift (v - 1) 1) 2) 4) 8) 16
  omega

lemma two_mul_length_le_fftSize (N : ℕ) (hN : 1 ≤ N) : 2 * N ≤ fftSize N :=
  le_ceilPow2 (2 * N) (by omega)

lemma sum_stdAddChar_mul (n : ℕ) [NeZero n] (t : ZMod n) :
    ∑ k : ZMod n, ZMod.stdAddChar (k * t) = if t = 0 then (n : ℂ) else 0 := by
  split_ifs with ht
  · subst ht
    simp only [mul_zero, AddChar.map_zero_eq_one]
    rw [Finset.sum_const, Finset.card_univ, ZMod.card]
    simp
  · have hne : AddChar.mulShift ZMod.stdAddChar t ≠ 1 :=
      ZMod.isPrimitive_stdAddChar n ht
    have hz := AddChar.sum_eq_zero_of_ne_one hne
    calc ∑ k : ZMod n, ZMod.stdAddChar (k * t)
        = ∑ k : ZMod n, AddChar.mulShift ZMod.stdAddChar t k := by
          refine Finset.sum_congr rfl fun k _ => ?_
          rw [AddChar.mulShift_apply, mul_comm]
      _ = 0 := hz

lemma conj_stdAddChar (n : ℕ) [NeZero n] (a : ZMod n) :
    (starRingEnd ℂ) (ZMod.stdAddChar a) = ZMod.stdAddChar (-a) := by
  rw [ZMod.stdAddChar_apply, ZMod.stdAddChar_apply, AddChar.map_neg_eq_inv]
  exact (Circle.coe_inv_eq_conj _).symm

lemma conj_dftc {n : ℕ} [NeZero n] (Φ : ZMod n → ℂ)
    (hreal : ∀ j, (starRingEnd ℂ) (Φ j) = Φ j) (k : ZMod n) :
    (starRingEnd ℂ) (dftc Φ k) = ∑ j : ZMod n, Φ j * ZMod.stdAddChar (j * k) := by
  unfold dftc
  rw [map_sum]
  refine Finset.sum_congr rfl fun j _ => ?_
  rw [map_mul, hreal j, conj_stdAddChar, neg_neg]


lemma idft_power_spectrum (n : ℕ) [NeZero n] (Φ : ZMod n → ℂ)
    (hreal : ∀ j, (starRingEnd ℂ) (Φ j) = Φ j) (τ : ZMod n) :
    idftc (powerSpectrumFun (dftc Φ)) τ = ∑ a : ZMod n, Φ a * Φ (a + τ) := by
  unfold idftc powerSpectrumFun
  have step1 : ∀ k : ZMod n,
      dftc Φ k * (starRingEnd ℂ) (dftc Φ k) * ZMod.stdAddChar (k * τ) =
        ∑ a : ZMod n, ∑ b : ZMod n,
          Φ a * Φ b * ZMod.stdAddChar (k * (τ + b - a)) := by
    intro k
    rw [conj_dftc Φ hreal k]
    unfold dftc
    rw [Finset.sum_mul_sum]
    rw [Finset.sum_mul]
    refine Finset.sum_congr rfl fun a _ => ?_
    rw [Finset.sum_mul]
    refine Finset.sum_congr rfl fun b _ => ?_
    have hchar : ZMod.stdAddChar (-(a * k)) * ZMod.stdAddChar (b * k) *
        ZMod.stdAddChar (k * τ) = ZMod.stdAddChar (k * (τ + b - a)) := by
      rw [← AddChar.map_add_eq_mul, ← AddChar.map_add_eq_mul]
      congr 1
      ring
    calc Φ a * ZMod.stdAddChar (-(a * k)) * (Φ b * ZMod.stdAddChar (b * k)) *
          ZMod.stdAddChar (k * τ)
        = Φ a * Φ b * (ZMod.stdAddChar (-(a * k)) * ZMod.stdAddChar (b * k) *
            ZMod.stdAddChar (k * τ)) := by ring
      _ = Φ a * Φ b * ZMod.stdAddChar (k * (τ + b - a)) := by rw [hchar]
  rw [Finset.sum_congr rfl fun k _ => step1 k]
  rw [Finset.sum_comm]
  have step2 : ∀ a : ZMod n,
      (∑ k : ZMod n, ∑ b : ZMod n,
        Φ a * Φ b * ZMod.stdAddChar (k * (τ + b - a))) =
      Φ a * Φ (a - τ) * (n : ℂ) := by
    intro a
    rw [Finset.sum_comm]
    have inner : ∀ b : ZMod n,
        (∑ k : ZMod n, Φ a * Φ b * ZMod.stdAddChar (k * (τ + b - a))) =
          Φ a * Φ b * (if τ + b - a = 0 then (n : ℂ) else 0) := by
      intro b
      rw [← Finset.mul_sum, sum_stdAddChar_mul]
    rw [Finset.sum_congr rfl fun b _ => inner b]
    calc ∑ b : ZMod n, Φ a * Φ b * (if τ + b - a = 0 then (n : ℂ) else 0)
        = ∑ b : ZMod n, (if b = a - τ then Φ a * Φ b * (n : ℂ) else 0) := by
          refine Finset.sum_congr rfl fun b _ => ?_
          by_cases h : b = a - τ
          · have h1 : τ + b - a = 0 := by rw [h]; ring
            rw [if_pos h1, if_pos h]
          · have h1 : τ + b - a ≠ 0 := fun hc => h (by linear_combination hc)
            rw [if_neg h1, if_neg h, mul_zero]
      _ = Φ a * Φ (a - τ) * (n : ℂ) := by
          rw [Finset.sum_ite_eq' Finset.univ (a - τ)
            (fun b => Φ a * Φ b * (n : ℂ))]
          simp
  rw [Finset.sum_congr rfl fun a _ => step2 a]
  have hn : (n : ℂ) ≠ 0 := Nat.cast_ne_zero.mpr (NeZero.ne n)
  rw [← Finset.sum_mul]
  rw [mul_comm ((n : ℂ)⁻¹) _, mul_assoc, mul_inv_cancel₀ hn, mul_one]
  refine (Fintype.sum_equiv (Equiv.addRight τ) _ _ fun a => ?_).symm
  rw [Equiv.coe_addRight, add_sub_cancel_right]
  ring


lemma sum_zmod_eq_sum_range (n : ℕ) [NeZero n] (f : ZMod n → ℂ) :
    ∑ a : ZMod n, f a = ∑ i ∈ Finset.range n, f (i : ZMod n) := by
  have himg : (Finset.range n).image (fun i : ℕ => (i : ZMod n)) = Finset.univ := by
    apply Finset.eq_univ_of_forall
    intro a
    rw [Finset.mem_image]
    exact ⟨a.val, Finset.mem_range.mpr (ZMod.val_lt a), ZMod.natCast_zmod_val a⟩
  have hinj : ∀ i ∈ Finset.range n, ∀ j ∈ Finset.range n,
      (i : ZMod n) = (j : ZMod n) → i = j := by
    intro i hi j hj h
    have := congrArg ZMod.val h
    rwa [ZMod.val_cast_of_lt (Finset.mem_range.mp hi),
      ZMod.val_cast_of_lt (Finset.mem_range.mp hj)] at this
  rw [← himg, Finset.sum_image hinj]

lemma sum_padded_mul (n : ℕ) [NeZero n] (x : List ℚ) (τ : ℕ)
    (hn : 2 * x.length ≤ n) (hτ : τ < x.length) :
    ∑ a : ZMod n, paddedFun n x a * paddedFun n x (a + (τ : ZMod n)) =
      ((autocorr x τ : ℚ) : ℂ) := by
  have hlen_pos : 1 ≤ x.length := by omega
  have hlen_le : x.length ≤ n := by omega
  rw [sum_zmod_eq_sum_range]
  have hterm : ∀ i ∈ Finset.range n,
      paddedFun n x (i : ZMod n) * paddedFun n x ((i : ZMod n) + (τ : ZMod n)) =
        ((x.getD i 0 * x.getD ((i + τ) % n) 0 : ℚ) : ℂ) := by
    intro i hi
    unfold paddedFun
    rw [← Nat.cast_add]
    rw [ZMod.val_cast_of_lt (Finset.mem_range.mp hi), ZMod.val_natCast]
    push_cast
    ring
  rw [Finset.sum_congr rfl hterm]
  have hqsum : ∑ i ∈ Finset.range n, x.getD i 0 * x.getD ((i + τ) % n) 0 =
      autocorr x τ := by
    unfold autocorr
    have hsub : Finset.range (x.length - τ) ⊆ Finset.range n :=
      Finset.range_subset.mpr (by omega)
    have hvanish : ∀ i ∈ Finset.range n, i ∉ Finset.range (x.length - τ) →
        x.getD i 0 * x.getD ((i + τ) % n) 0 = 0 := by
      intro i hi hni
      have hi_ge : x.length - τ ≤ i := by
        rcases Finset.mem_range.mp hi with _
        by_contra hc
        exact hni (Finset.mem_range.mpr (by omega))
      rcases Nat.lt_or_ge i x.length with hilt | hige
      · have h1 : x.length ≤ i + τ := by omega
        have h2 : i + τ < n := by omega
        rw [Nat.mod_eq_of_lt h2, List.getD_eq_default x 0 h1, mul_zero]
      · rw [List.getD_eq_default x 0 hige, zero_mul]
    have heq : ∀ i ∈ Finset.range (x.length - τ),
        x.getD i 0 * x.getD ((i + τ) % n) 0 = x.getD i 0 * x.getD (i + τ) 0 := by
      intro i hi
      have h1 : i + τ < n := by
        have := Finset.mem_range.mp hi
        omega
      rw [Nat.mod_eq_of_lt h1]
    rw [← Finset.sum_subset hsub hvanish]
    exact Finset.sum_congr rfl heq
  rw [← hqsum]
  push_cast
  rfl

/-- C1: under the FFT contract (modelled as the exact discrete Fourier
transform) and exact arithmetic, autocorrelate writes into output[tau] the
linear non-circular autocorrelation of the input at lag tau, for every lag
below the input length; in particular output[0] is the sum of squares of the
input samples. -/
theorem autocorrelateFFT_eq_autocorr (x : List ℚ) (τ : ℕ)
    (hlen : 1 ≤ x.length) (hτ : τ < x.length) :
    autocorrelateFFT x.length x τ = ((autocorr x τ : ℚ) : ℝ) ∧
      autocorr x 0 = ∑ j ∈ Finset.range x.length, (x.getD j 0) ^ 2 := by
  constructor
  case right =>
    unfold autocorr
    rw [Nat.sub_zero]
    refine Finset.sum_congr rfl fun j _ => ?_
    rw [Nat.add_zero]
    ring
  unfold autocorrelateFFT
  have hreal : ∀ j, (starRingEnd ℂ) (paddedFun (fftSize x.length) x j) =
      paddedFun (fftSize x.length) x j := by
    intro j
    unfold paddedFun
    exact map_ratCast _ _
  rw [idft_power_spectrum (fftSize x.length) _ hreal]
  rw [sum_padded_mul (fftSize x.length) x τ
    (two_mul_length_le_fftSize x.length hlen) hτ]
  exact Complex.ratCast_re _

theorem autocorrelateFFT_eq_autocorr_witness :
    1 ≤ ([1, 2] : List ℚ).length ∧ 1 < ([1, 2] : List ℚ).length ∧
      (autocorrelateFFT ([1, 2] : List ℚ).length [1, 2] 1 =
          ((autocorr [1, 2] 1 : ℚ) : ℝ) ∧
        autocorr [1, 2] 0 =
          ∑ j ∈ Finset.range ([1, 2] : List ℚ).length,
            (([1, 2] : List ℚ).getD j 0) ^ 2) :=
  ⟨by decide, by decide,
    autocorrelateFFT_eq_autocorr [1, 2] 1 (by decide) (by decide)⟩

/-!
Lemmas for the stateful scratch-buffer model.
-/

lemma getD_set_ne (l : List ℚ) (i j : ℕ) (a : ℚ) (h : i ≠ j) :
    (l.set i a).getD j 0 = l.getD j 0 := by
  simp [List.getD, List.get?_eq_getElem?, List.getElem?_set_ne h]

lemma getD_set_self (l : List ℚ) (i : ℕ) (a : ℚ) (h : i < l.length) :
    (l.set i a).getD i 0 = a := by
  simp [List.getD, List.get?_eq_getElem?, List.getElem?_set_self h]

lemma foldl_set_length (v : ℕ → ℚ) :
    ∀ (l : List ℕ) (buf : List ℚ),
      (l.foldl (fun b i => b.set i (v i)) buf).length = buf.length
  | [], _ => rfl
  | i :: t, buf => by
    rw [List.foldl_cons, foldl_set_length v t, List.length_set]

lemma foldl_set_getD (v : ℕ → ℚ) :
    ∀ (l : List ℕ) (buf : List ℚ) (j : ℕ), j < buf.length →
      (l.foldl (fun b i => b.set i (v i)) buf).getD j 0 =
        if j ∈ l then v j else buf.getD j 0
  | [], buf, j, hj => by simp
  | i :: t, buf, j, hj => by
    rw [List.foldl_cons,
      foldl_set_getD v t (buf.set i (v i)) j (by rwa [List.length_set])]
    by_cases hjt : j ∈ t
    · rw [if_pos hjt, if_pos (List.mem_cons_of_mem i hjt)]
    · rw [if_neg hjt]
      by_cases hij : i = j
      · subst hij
        rw [getD_set_self buf i (v i) hj, if_pos (List.mem_cons_self i t)]
      · rw [getD_set_ne buf i j (v i) hij,
          if_neg (by
            rw [List.mem_cons]
            rintro (h | h)
            · exact hij h.symm
            · exact hjt h)]

lemma stepPad_length (buf input : List ℚ) :
    (stepPad buf input).length = buf.length := by
  unfold stepPad zeroTailLoop writeInputLoop
  rw [foldl_set_length (fun _ => 0), foldl_set_length]

lemma stepPad_getD (buf input : List ℚ) (hlen : input.length ≤ buf.length)
    (j : ℕ) (hj : j < buf.length) :
    (stepPad buf input).getD j 0 = input.getD j 0 := by
  unfold stepPad zeroTailLoop
  have hwl : (writeInputLoop buf input).length = buf.length := by
    unfold writeInputLoop
    rw [foldl_set_length]
  rw [hwl]
  rw [foldl_set_getD (fun _ => 0) _ _ j (by rwa [hwl])]
  rcases Nat.lt_or_ge j input.length with hjin | hjout
  · rw [if_neg (by rw [List.mem_range'_1]; omega)]
    unfold writeInputLoop
    rw [foldl_set_getD _ _ _ j hj, if_pos (List.mem_range.mpr hjin)]
  · rw [if_pos (by rw [List.mem_range'_1]; omega)]
    rw [List.getD_eq_default input 0 hjout]

lemma sum_range_mod_eq_autocorr (n : ℕ) (x : List ℚ) (τ : ℕ)
    (hn : 2 * x.length ≤ n) (hτ : τ < x.length) :
    ∑ i ∈ Finset.range n, x.getD i 0 * x.getD ((i + τ) % n) 0 = autocorr x τ := by
  unfold autocorr
  have hsub : Finset.range (x.length - τ) ⊆ Finset.range n :=
    Finset.range_subset.mpr (by omega)
  have hvanish : ∀ i ∈ Finset.range n, i ∉ Finset.range (x.length - τ) →
      x.getD i 0 * x.getD ((i + τ) % n) 0 = 0 := by
    intro i hi hni
    have hi_ge : x.length - τ ≤ i := by
      by_contra hc
      exact hni (Finset.mem_range.mpr (by omega))
    rcases Nat.lt_or_ge i x.length with hilt | hige
    · have h1 : x.length ≤ i + τ := by omega
      have h2 : i + τ < n := by omega
      rw [Nat.mod_eq_of_lt h2, List.getD_eq_default x 0 h1, mul_zero]
    · rw [List.getD_eq_default x 0 hige, zero_mul]
  have heq : ∀ i ∈ Finset.range (x.length - τ),
      x.getD i 0 * x.getD ((i + τ) % n) 0 = x.getD i 0 * x.getD (i + τ) 0 := by
    intro i hi
    have h1 : i + τ < n := by
      have := Finset.mem_range.mp hi
      omega
    rw [Nat.mod_eq_of_lt h1]
  rw [← Finset.sum_subset hsub hvanish]
  exact Finset.sum_congr rfl heq

lemma circAutocorr_stepPad (pb input : List ℚ) (τ : ℕ)
    (hn : 2 * input.length ≤ pb.length) (hτ : τ < input.length) :
    circAutocorr (stepPad pb input) τ = autocorr input τ := by
  unfold circAutocorr
  rw [stepPad_length]
  have hnpos : 0 < pb.length := by omega
  have hterm : ∀ j ∈ Finset.range pb.length,
      (stepPad pb input).getD j 0 *
          (stepPad pb input).getD ((j + τ) % pb.length) 0 =
        input.getD j 0 * input.getD ((j + τ) % pb.length) 0 := by
    intro j hj
    rw [stepPad_getD pb input (by omega) j (Finset.mem_range.mp hj),
      stepPad_getD pb input (by omega) _ (Nat.mod_lt _ hnpos)]
  rw [Finset.sum_congr rfl hterm]
  exact sum_range_mod_eq_autocorr pb.length input τ hn hτ


lemma take_succ_set (a : ℚ) :
    ∀ (nb : List ℚ) (i : ℕ), i < nb.length →
      (nb.set i a).take (i + 1) = nb.take i ++ [a]
  | [], i, h => absurd h (by simp)
  | hd :: tl, 0, _ => by simp
  | hd :: tl, i + 1, h => by
    simp only [List.set_cons_succ, List.take_succ_cons, List.cons_append]
    rw [take_succ_set a tl i (by simpa using h)]

lemma zeroTail_foldl_eq :
    ∀ (cnt i : ℕ) (nb : List ℚ), i + cnt = nb.length →
      (List.range' i cnt).foldl (fun b j => b.set j 0) nb =
        nb.take i ++ List.replicate cnt 0
  | 0, i, nb, h => by
    simp only [List.range'_zero, List.foldl_nil, List.replicate_zero,
      List.append_nil]
    have hi : i = nb.length := by omega
    rw [hi]
    exact (List.take_length nb).symm
  | cnt + 1, i, nb, h => by
    rw [List.range'_succ, List.foldl_cons]
    rw [zeroTail_foldl_eq cnt (i + 1) (nb.set i 0) (by rw [List.length_set]; omega)]
    rw [take_succ_set 0 nb i (by omega)]
    rw [List.append_assoc, List.singleton_append, ← List.replicate_succ]

lemma zeroTailLoop_eq (nb : List ℚ) (i : ℕ) (h : i ≤ nb.length) :
    zeroTailLoop nb i = nb.take i ++ List.replicate (nb.length - i) 0 := by
  unfold zeroTailLoop
  exact zeroTail_foldl_eq (nb.length - i) i nb (by omega)

lemma nsdfLoopSt_eq_fill (x : List ℚ) :
    ∀ (fuel i : ℕ) (m : ℚ) (nb : List ℚ), i + fuel = nb.length →
      (∀ j, i ≤ j → j < nb.length → nb.getD j 0 = autocorr x j) →
      nsdfLoopSt x fuel i m nb = nb.take i ++ nsdfFill x fuel i m
  | 0, i, m, nb, hlen, _ => by
    unfold nsdfLoopSt nsdfFill
    rw [List.append_nil]
    have hi : i = nb.length := by omega
    rw [hi]
    exact (List.take_length nb).symm
  | fuel + 1, i, m, nb, hlen, hsuf => by
    unfold nsdfLoopSt nsdfFill
    split_ifs with hm
    · have hi : i < nb.length := by omega
      have hri : nb.getD i 0 = autocorr x i := hsuf i le_rfl hi
      rw [hri]
      set nb1 := nb.set i (2 * autocorr x i / m) with hnb1
      have hlen1 : (i + 1) + fuel = nb1.length := by
        rw [hnb1, List.length_set]
        omega
      have hsuf1 : ∀ j, i + 1 ≤ j → j < nb1.length → nb1.getD j 0 = autocorr x j := by
        intro j hj1 hj2
        rw [hnb1, getD_set_ne nb i j _ (by omega)]
        exact hsuf j (by omega) (by rwa [List.length_set] at hj2)
      rw [nsdfLoopSt_eq_fill x fuel (i + 1) _ nb1 hlen1 hsuf1]
      rw [hnb1, take_succ_set _ nb i hi]
      rw [List.append_assoc, List.singleton_append]
    · rw [zeroTailLoop_eq nb i (by omega)]
      have : nb.length - i = fuel + 1 := by omega
      rw [this]


lemma writeOutputLoop_length (out : List ℚ) (vals : ℕ → ℚ) (n : ℕ) :
    (writeOutputLoop out vals n).length = out.length := by
  unfold writeOutputLoop
  rw [foldl_set_length]

lemma writeOutputLoop_getD (out : List ℚ) (vals : ℕ → ℚ) (n j : ℕ)
    (hj : j < out.length) :
    (writeOutputLoop out vals n).getD j 0 =
      if j < n then vals j else out.getD j 0 := by
  unfold writeOutputLoop
  rw [foldl_set_getD vals _ _ j hj]
  by_cases h : j < n
  · rw [if_pos (List.mem_range.mpr h), if_pos h]
  · rw [if_neg (fun hc => h (List.mem_range.mp hc)), if_neg h]

lemma writeOutputLoop_eq_map (pb nb input : List ℚ) (N : ℕ)
    (hpb : 2 * input.length ≤ pb.length) (hnb : nb.length = N)
    (hlen : input.length = N) :
    writeOutputLoop nb (fun i => circAutocorr (stepPad pb input) i) input.length =
      (List.range input.length).map fun τ => autocorr input τ := by
  apply List.ext_getElem
  · rw [writeOutputLoop_length, List.length_map, List.length_range]
    omega
  · intro j hj1 hj2
    rw [List.length_map, List.length_range] at hj2
    have hjnb : j < nb.length := by omega
    have hgd : (writeOutputLoop nb
        (fun i => circAutocorr (stepPad pb input) i) input.length).getD j 0 =
        circAutocorr (stepPad pb input) j := by
      rw [writeOutputLoop_getD _ _ _ j hjnb, if_pos hj2]
    rw [← List.getD_eq_getElem _ 0 hj1, hgd,
      circAutocorr_stepPad pb input j hpb hj2]
    rw [List.getElem_map, List.getElem_range]

lemma nsdfSt_ok (N : ℕ) (pb nb input : List ℚ)
    (hpb : pb.length = fftSize N) (hnb : nb.length = N) (hN : 1 ≤ N)
    (hlen : input.length = N) :
    nsdfSt N pb nb input = .ok (stepPad pb input, nsdfBuffer input) := by
  unfold nsdfSt autocorrelateSt
  rw [if_neg (by omega)]
  simp only
  have hpb2 : 2 * input.length ≤ pb.length := by
    rw [hpb, hlen]
    exact two_mul_length_le_fftSize N hN
  rw [writeOutputLoop_eq_map pb nb input N hpb2 hnb hlen]
  have hrlen : ((List.range input.length).map fun τ => autocorr input τ).length =
      input.length := by
    rw [List.length_map, List.length_range]
  have hrget : ∀ j,
      j < ((List.range input.length).map fun τ => autocorr input τ).length →
      ((List.range input.length).map fun τ => autocorr input τ).getD j 0 =
        autocorr input j := by
    intro j hj
    rw [List.getD_eq_getElem _ 0 hj]
    simp
  have hm0 : 2 * ((List.range input.length).map fun τ =>
      autocorr input τ).getD 0 0 = mprime input 0 := by
    rw [hrget 0 (by omega)]
    rfl
  rw [hm0, nsdfLoopSt_eq_fill input
    ((List.range input.length).map fun τ => autocorr input τ).length 0
    (mprime input 0) ((List.range input.length).map fun τ => autocorr input τ)
    (by omega) (fun j _ hj => hrget j hj)]
  rw [List.take_zero, List.nil_append, hrlen]
  rfl

lemma findPitchSt_eq_pure (st : DetectorState) (input : List ℚ) (sr : ℚ)
    (hpb : st.paddedBuf.length = fftSize st.config.inputLength)
    (hnb : st.nsdfBuf.length = st.config.inputLength)
    (hN : 1 ≤ st.config.inputLength) :
    Except.map Prod.fst (findPitchSt st input sr) =
      findPitch st.config input sr := by
  unfold findPitchSt findPitch
  rcases hgate : belowMinimumVolume st.config input with _ | _
  · simp only [Bool.false_eq_true, if_false]
    by_cases hlen : input.length = st.config.inputLength
    · rw [nsdfSt_ok st.config.inputLength st.paddedBuf st.nsdfBuf input
        hpb hnb hN hlen]
      rw [if_neg (by omega)]
      dsimp only
      rcases hc : chooseResultIndex st.config.clarityThreshold (nsdfBuffer input)
        with _ | k
      · rfl
      · rfl
    · have herr : nsdfSt st.config.inputLength st.paddedBuf st.nsdfBuf input =
          .error (.wrongLength st.config.inputLength input.length) := by
        unfold nsdfSt autocorrelateSt
        rw [if_pos hlen]
      rw [herr, if_pos hlen]
      rfl
  · simp only [if_true]
    rfl


/-- C9: findPitch and autocorrelate are deterministic functions of the
configuration, input and sample rate.  Every scratch cell read during a call
was written earlier in the same call, so with correctly sized scratch
buffers the stateful pipeline returns the pure result whatever the buffers
previously held: the result equals the pure findPitch, two equally
configured instances agree, and the autocorrelate output buffers agree. -/
theorem findPitchSt_deterministic (st1 st2 : DetectorState) (input : List ℚ)
    (sr : ℚ) (hcfg : st1.config = st2.config)
    (hpb1 : st1.paddedBuf.length = fftSize st1.config.inputLength)
    (hnb1 : st1.nsdfBuf.length = st1.config.inputLength)
    (hpb2 : st2.paddedBuf.length = fftSize st2.config.inputLength)
    (hnb2 : st2.nsdfBuf.length = st2.config.inputLength)
    (hN : 1 ≤ st1.config.inputLength) :
    Except.map Prod.fst (findPitchSt st1 input sr) =
        findPitch st1.config input sr ∧
      Except.map Prod.fst (findPitchSt st1 input sr) =
        Except.map Prod.fst (findPitchSt st2 input sr) ∧
      Except.map Prod.snd (autocorrelateSt st1.config.inputLength
          st1.paddedBuf st1.nsdfBuf input) =
        Except.map Prod.snd (autocorrelateSt st2.config.inputLength
          st2.paddedBuf st2.nsdfBuf input) := by
  have h1 := findPitchSt_eq_pure st1 input sr hpb1 hnb1 hN
  have h2 := findPitchSt_eq_pure st2 input sr hpb2 hnb2 (by rw [← hcfg]; exact hN)
  refine ⟨h1, ?_, ?_⟩
  · rw [h1, h2, hcfg]
  · by_cases hlen : input.length = st1.config.inputLength
    · have e1 : autocorrelateSt st1.config.inputLength st1.paddedBuf
          st1.nsdfBuf input =
          .ok (stepPad st1.paddedBuf input,
            writeOutputLoop st1.nsdfBuf
              (fun i => circAutocorr (stepPad st1.paddedBuf input) i)
              input.length) := by
        unfold autocorrelateSt
        rw [if_neg (by omega)]
      have e2 : autocorrelateSt st2.config.inputLength st2.paddedBuf
          st2.nsdfBuf input =
          .ok (stepPad st2.paddedBuf input,
            writeOutputLoop st2.nsdfBuf
              (fun i => circAutocorr (stepPad st2.paddedBuf input) i)
              input.length) := by
        unfold autocorrelateSt
        rw [if_neg (by rw [← hcfg]; omega)]
      rw [e1, e2]
      have hw1 := writeOutputLoop_eq_map st1.paddedBuf st1.nsdfBuf input
        st1.config.inputLength
        (by rw [hpb1, hlen]; exact two_mul_length_le_fftSize _ hN) hnb1 hlen
      have hw2 := writeOutputLoop_eq_map st2.paddedBuf st2.nsdfBuf input
        st2.config.inputLength
        (by
          rw [hpb2, hlen, hcfg]
          exact two_mul_length_le_fftSize _ (by rw [← hcfg]; exact hN))
        hnb2 (by rw [← hcfg]; exact hlen)
      dsimp only [Except.map]
      rw [hw1, hw2]
    · have e1 : autocorrelateSt st1.config.inputLength st1.paddedBuf
          st1.nsdfBuf input =
          .error (.wrongLength st1.config.inputLength input.length) := by
        unfold autocorrelateSt
        rw [if_pos hlen]
      have e2 : autocorrelateSt st2.config.inputLength st2.paddedBuf
          st2.nsdfBuf input =
          .error (.wrongLength st2.config.inputLength input.length) := by
        unfold autocorrelateSt
        rw [if_pos (by rw [← hcfg]; exact hlen)]
      rw [e1, e2, ← hcfg]

theorem findPitchSt_deterministic_witness :
    (⟨⟨2, 1, 0, 1⟩, List.replicate 4 7, List.replicate 2 9⟩ :
        DetectorState).config =
      (⟨⟨2, 1, 0, 1⟩, List.replicate 4 0, List.replicate 2 5⟩ :
        DetectorState).config ∧
    1 ≤ (⟨⟨2, 1, 0, 1⟩, List.replicate 4 7, List.replicate 2 9⟩ :
        DetectorState).config.inputLength ∧
    (Except.map Prod.fst (findPitchSt
          ⟨⟨2, 1, 0, 1⟩, List.replicate 4 7, List.replicate 2 9⟩ [3, 5] 10) =
        findPitch ⟨2, 1, 0, 1⟩ [3, 5] 10 ∧
      Except.map Prod.fst (findPitchSt
          ⟨⟨2, 1, 0, 1⟩, List.replicate 4 7, List.replicate 2 9⟩ [3, 5] 10) =
        Except.map Prod.fst (findPitchSt
          ⟨⟨2, 1, 0, 1⟩, List.replicate 4 0, List.replicate 2 5⟩ [3, 5] 10) ∧
      Except.map Prod.snd (autocorrelateSt 2 (List.replicate 4 7)
          (List.replicate 2 9) [3, 5]) =
        Except.map Prod.snd (autocorrelateSt 2 (List.replicate 4 0)
          (List.replicate 2 5) [3, 5])) :=
  ⟨by decide, by decide,
    findPitchSt_deterministic
      ⟨⟨2, 1, 0, 1⟩, List.replicate 4 7, List.replicate 2 9⟩
      ⟨⟨2, 1, 0, 1⟩, List.replicate 4 0, List.replicate 2 5⟩ [3, 5] 10
      (by decide) (by decide) (by decide) (by decide) (by decide) (by decide)⟩

end Pitchy
